import Mathlib

/-!
Verification development for the Shadovi terminal text editor.

The Rust sources under verification are `src/row.rs` (the `Row` line
structure: grapheme-indexed insert/delete/split/append, directional
search, the syntax-highlighting scan, the search-match overlay and the
styled render) and `src/editor.rs` (viewport scrolling and the
save-status message).  Rust `String` payloads are embedded as
`List Char`; `usize` values as `Nat` (the saturating operations of the
source coincide with truncated `Nat` arithmetic); fallible/panicking
code returns `Option`.

Byte indices: `str::find`/`rfind` and `grapheme_indices` in the source
work with UTF-8 byte offsets.  The map from char positions to byte
offsets is strictly monotone, and both the needle offset and the
cluster offsets are transformed by the same map, so equality and order
comparisons between them are preserved; the embedding therefore uses
char offsets throughout, which is observationally equivalent.
-/

/-- Modelled from the spec: the unicode-segmentation crate is external
to this repository.  `isCombining` holds on the combining diacritical
marks U+0300–U+036F, the fragment of UAX #29 extend-class characters
used by this model. -/
def isCombining (c : Char) : Bool := 768 ≤ c.toNat && c.toNat ≤ 879

/-- Modelled from the spec: grapheme-cluster segmentation
("user-perceived character unit (may span multiple underlying code
units)").  A cluster is a character followed by a run of combining
marks; a boundary falls exactly before every non-combining character
(other than at the very start).  This is the fragment of UAX #29
generated by the extend class of `isCombining`. -/
def graphemes : List Char → List (List Char)
  | [] => []
  | c :: rest =>
    match graphemes rest with
    | [] => [[c]]
    | g :: gs =>
      match g with
      | [] => [c] :: gs
      | d :: _ => if isCombining d then (c :: g) :: gs else [c] :: g :: gs

/-- UTF-8 byte length of a char list (Rust `String::len`). -/
def utf8Len (s : List Char) : Nat := (s.map Char.utf8Size).sum

/-- Modelled from the spec: the highlight categories of
`highlighting.rs` (declared in main.rs but not present under src/):
"a tag (None, Number, String, Character, Comment, KeywordPrimary,
Match, ...) assigned per grapheme". -/
inductive HType where
  | None
  | Number
  | Match
  | String
  | Character
  | Comment
  | KeywordPrimary
deriving DecidableEq, Repr

/-- SearchDirection (re-exported from editor.rs). -/
inductive SearchDirection where
  | Forward
  | Backward
deriving DecidableEq, Repr

/-- Modelled from the spec: the per-file-type highlighting
configuration of `filetype.rs` (not present under src/): "a
configuration enumerating which token classes are active (character
literals, line comments, quoted strings, numeric literals, primary
keyword set)". -/
structure HighlightingOptions where
  numbers : Bool
  strings : Bool
  characters : Bool
  comments : Bool
  keywordsPrimary : List (List Char)
deriving Repr

/-- The Row structure (row.rs 9–14): text payload, highlight array,
cached grapheme count. -/
structure Row where
  string : List Char
  highlighting : List HType
  len : Nat
deriving DecidableEq, Repr

/-- From<&str> for Row (row.rs 16–24): the grapheme count is computed
eagerly, the highlight array starts empty. -/
def Row.fromStr (slice : List Char) : Row :=
  { string := slice, highlighting := [], len := (graphemes slice).length }

/-- The data-model invariant of the spec: the cached grapheme count
equals the number of clusters in the payload. -/
def Row.WF (r : Row) : Prop := r.len = (graphemes r.string).length

instance (r : Row) : Decidable (Row.WF r) := by unfold Row.WF; infer_instance

/-- The rebuild loop of Row::insert (row.rs 66–75): re-emits every
cluster in order, splicing the new character in front of cluster `a`;
`i` is the enumeration index, the second component is the `length`
counter (one per emitted cluster, one extra for the spliced char). -/
def insertLoop (a : Nat) (c : Char) (i : Nat) : List (List Char) → List Char × Nat
  | [] => ([], 0)
  | g :: gs =>
    let rest := insertLoop a c (i + 1) gs
    if i = a then (c :: (g ++ rest.1), rest.2 + 2) else (g ++ rest.1, rest.2 + 1)

/-- Row::insert (row.rs 60–78): at or past the end, push the char and
bump the cached length; otherwise rebuild the payload with the splice
loop and take its recomputed length. -/
def Row.insert (r : Row) (a : Nat) (c : Char) : Row :=
  if a ≥ r.len then { r with string := r.string ++ [c], len := r.len + 1 }
  else
    let p := insertLoop a c 0 (graphemes r.string)
    { r with string := p.1, len := p.2 }

/-- The rebuild loop of Row::delete (row.rs 82–89): re-emits every
cluster except the one at index `a`, counting the kept clusters. -/
def deleteLoop (a : Nat) (i : Nat) : List (List Char) → List Char × Nat
  | [] => ([], 0)
  | g :: gs =>
    let rest := deleteLoop a (i + 1) gs
    if i ≠ a then (g ++ rest.1, rest.2 + 1) else rest

/-- Row::delete (row.rs 80–92): no-op at or past the cached length,
otherwise rebuild omitting cluster `a`. -/
def Row.delete (r : Row) (a : Nat) : Row :=
  if a ≥ r.len then r
  else
    let p := deleteLoop a 0 (graphemes r.string)
    { r with string := p.1, len := p.2 }

/-- Row::append (row.rs 93–96): concatenate payloads, add cached
lengths. -/
def Row.append (r other : Row) : Row :=
  { r with string := r.string ++ other.string, len := r.len + other.len }

/-- The loop of Row::split (row.rs 102–110): clusters with index below
`a` go to the retained part, the rest to the split-off part, each with
its own counter. -/
def splitLoop (a : Nat) (i : Nat) : List (List Char) → (List Char × Nat) × (List Char × Nat)
  | [] => (([], 0), ([], 0))
  | g :: gs =>
    let rest := splitLoop a (i + 1) gs
    if i < a then ((g ++ rest.1.1, rest.1.2 + 1), rest.2)
    else (rest.1, (g ++ rest.2.1, rest.2.2 + 1))

/-- Row::split (row.rs 97–118): the receiver keeps the clusters before
`a` (its highlight array is left in place, as in the source); the
returned row gets the remaining clusters and an empty highlight
array. -/
def Row.split (r : Row) (a : Nat) : Row × Row :=
  let p := splitLoop a 0 (graphemes r.string)
  ({ r with string := p.1.1, len := p.1.2 },
   { string := p.2.1, highlighting := [], len := p.2.2 })

/-- Boolean prefix test on char lists (the occurrence test underlying
`str::find`). -/
def isPre : List Char → List Char → Bool
  | [], _ => true
  | _ :: _, [] => false
  | a :: as2, b :: bs => a == b && isPre as2 bs

/-- `str::find`: position of the first occurrence of `q` in `hay`
(char offset; see the header note on byte vs char offsets). -/
def strFind (hay q : List Char) : Option Nat :=
  if isPre q hay then some 0
  else
    match hay with
    | [] => none
    | _ :: t => (strFind t q).map (· + 1)

/-- `str::rfind`: position of the last occurrence of `q` in `hay`. -/
def strRFind (hay q : List Char) : Option Nat :=
  match hay with
  | [] => if isPre q [] then some 0 else none
  | _ :: t =>
    match strRFind t q with
    | some p => some (p + 1)
    | none => if isPre q hay then some 0 else none

/-- Starting offsets of the clusters of a segmented string
(`grapheme_indices`, in char units). -/
def cumOffsets : List (List Char) → List Nat
  | [] => []
  | g :: gs => 0 :: (cumOffsets gs).map (· + g.length)

/-- The boundary-alignment loop of Row::find (row.rs 134–139): first
cluster index whose starting offset equals `p`. -/
def offsetLookup : List Nat → Nat → Option Nat
  | [], _ => none
  | o :: os, p => if o = p then some 0 else (offsetLookup os p).map (· + 1)

/-- Row::find (row.rs 124–142): guard on empty query / out-of-range
start, clip the cluster window by direction, locate the occurrence in
the flattened window, and convert the offset back to a cluster index
(None when the occurrence does not start on a cluster boundary). -/
def Row.find (r : Row) (q : List Char) (a : Nat) (dir : SearchDirection) : Option Nat :=
  if a > r.len ∨ q = [] then none
  else
    let start := if dir = SearchDirection.Forward then a else 0
    let stop := if dir = SearchDirection.Forward then r.len else a
    let substring := (((graphemes r.string).drop start).take (stop - start)).flatten
    let mbi := if dir = SearchDirection.Forward then strFind substring q
               else strRFind substring q
    match mbi with
    | some p => (offsetLookup (cumOffsets (graphemes substring)) p).map (fun k => start + k)
    | none => none

/-- The write loop of Row::highlight_match (row.rs 151–153):
`self.highlighting[i] = Match` for `count` successive indices starting
at `i`; `none` models the index-out-of-bounds panic of the unchecked
indexed write. -/
def writeRange (hl : List HType) (i : Nat) : Nat → Option (List HType)
  | 0 => some hl
  | n + 1 =>
    if i < hl.length then writeRange (hl.set i HType.Match) (i + 1) n
    else none

/-- The while-let loop of Row::highlight_match (row.rs 147–156):
repeatedly find the next forward occurrence and overwrite its clusters
with Match, resuming right after it.  (`checked_add` on `usize` is
total on `Nat` and so has no overflow branch here.)  Find reads only
the payload and the cached length, so threading the highlight array
separately is faithful. -/
def hmLoop (r : Row) (w : List Char) (idx : Nat) (hl : List HType) : Option (List HType) :=
  match h : r.find w idx SearchDirection.Forward with
  | none => some hl
  | some m =>
    match writeRange hl m (graphemes w).length with
    | none => none
    | some hl2 => hmLoop r w (m + (graphemes w).length) hl2
termination_by r.len + 1 - idx
decreasing_by
  have hguard : ¬(idx > r.len ∨ w = []) := by
    intro hc
    rw [Row.find, if_pos hc] at h
    exact Option.noConfusion h
  have hm : idx ≤ m := by
    rw [Row.find, if_neg hguard] at h
    simp only [reduceIte] at h
    split at h
    · have := Option.map_eq_some'.mp h
      obtain ⟨k, -, hk⟩ := this
      omega
    · exact absurd h (by simp)
  have hw : w ≠ [] := fun hnil => hguard (Or.inr hnil)
  have hidx : idx ≤ r.len := by
    by_contra hgt
    exact hguard (Or.inl (by omega))
  have hlen : 1 ≤ (graphemes w).length := by
    cases w with
    | nil => exact absurd rfl hw
    | cons c cs =>
      rw [graphemes]
      cases graphemes cs with
      | nil => simp
      | cons g gs =>
        cases g with
        | nil => simp
        | cons d ds => by_cases hd : isCombining d <;> simp [hd]
  omega

/-- Row::highlight_match (row.rs 144–158). -/
def Row.highlightMatch (r : Row) (word : Option (List Char)) : Option Row :=
  match word with
  | none => some r
  | some w =>
    if w = [] then some r
    else (hmLoop r w 0 r.highlighting).map (fun hl => { r with highlighting := hl })

/-- Rust `char::is_ascii_digit`. -/
def isAsciiDigit (c : Char) : Bool := '0' ≤ c && c ≤ '9'

/-- Rust `char::is_ascii_whitespace`: space, tab, newline, form feed,
carriage return. -/
def isAsciiWhitespace (c : Char) : Bool :=
  c == ' ' || c == '\t' || c == '\n' || c == '\x0C' || c == '\r'

/-- Row::highlight_char (row.rs 160–178): at an opening quote, look
for the closing quote two positions on (three after a backslash); on
success the pushed run covers `closing_idx - idx` positions (the
source range `0 .. closing_idx - idx` is exclusive).  The returned
list is what the recognizer pushes; the scan cursor advances by its
length, as every push in the source is paired with an increment. -/
def highlightChar (opts : HighlightingOptions) (idx : Nat) (c : Char) (chars : List Char) :
    Option (List HType) :=
  if opts.characters && c == '\'' then
    match chars[idx + 1]? with
    | some nc =>
      match chars[if nc == '\\' then idx + 3 else idx + 2]? with
      | some cc =>
        if cc == '\'' then
          some (List.replicate ((if nc == '\\' then idx + 3 else idx + 2) - idx) HType.Character)
        else none
      | none => none
    | none => none
  else none

/-- Row::highlight_comment (row.rs 180–193): `//` consumes from the
current position through the end of the line. -/
def highlightComment (opts : HighlightingOptions) (idx : Nat) (c : Char) (chars : List Char) :
    Option (List HType) :=
  if opts.comments && c == '/' && decide (idx < chars.length) then
    match chars[idx + 1]? with
    | some nc =>
      if nc == '/' then some (List.replicate (chars.length - idx) HType.Comment) else none
    | none => none
  else none

/-- The String run of Row::highlight_string (row.rs 211–217): one push
per position starting at the opening quote, where `suffix` is the list
of characters after the current position; the loop stops after seeing
a closing quote or the end of the line. -/
def stringRun : List Char → List HType
  | [] => [HType.String]
  | nc :: rest => if nc == '"' then [HType.String] else HType.String :: stringRun rest

/-- Row::highlight_string (row.rs 209–223): the loop run plus the one
unconditional push after the loop (which is what overshoots by one on
an unterminated string). -/
def highlightString (opts : HighlightingOptions) (idx : Nat) (c : Char) (chars : List Char) :
    Option (List HType) :=
  if opts.strings && c == '"' then
    some (stringRun (chars.drop (idx + 1)) ++ [HType.String])
  else none

/-- The Number run of Row::highlight_number (row.rs 234–240): one push
per position; the run continues over digits and dots. -/
def numberRun : List Char → List HType
  | [] => [HType.Number]
  | nc :: rest =>
    if nc == '.' || isAsciiDigit nc then HType.Number :: numberRun rest else [HType.Number]

/-- Row::highlight_number (row.rs 225–244): a digit qualifies only if
the previous character (when any) is a digit or ASCII whitespace; the
`none` on a missing previous character is unreachable from the scan
loop, which only calls recognizers at in-bounds positions. -/
def highlightNumber (opts : HighlightingOptions) (idx : Nat) (c : Char) (chars : List Char) :
    Option (List HType) :=
  if opts.numbers && isAsciiDigit c then
    if idx > 0 then
      match chars[idx - 1]? with
      | some prev =>
        if !isAsciiDigit prev && !isAsciiWhitespace prev then none
        else some (numberRun (chars.drop (idx + 1)))
      | none => none
    else some (numberRun (chars.drop (idx + 1)))
  else none

/-- Row::highlight_str (row.rs 195–207): an empty needle never
matches; otherwise every character of the needle must equal the
character at the corresponding offset from `idx` (i.e. the needle is a
prefix of the remaining characters), and the pushed run has the
needle's UTF-8 byte length (`substring.len()` in the source counts
bytes). -/
def highlightStr (idx : Nat) (substring : List Char) (chars : List Char) (t : HType) :
    Option (List HType) :=
  if substring = [] then none
  else if isPre substring (chars.drop idx) then some (List.replicate (utf8Len substring) t)
  else none

/-- The word loop of Row::highlight_keywords_primary (row.rs
246–253): first keyword that matches at the current position wins. -/
def keywordsLoop (idx : Nat) (chars : List Char) : List (List Char) → Option (List HType)
  | [] => none
  | w :: ws =>
    match highlightStr idx w chars HType.KeywordPrimary with
    | some add => some add
    | none => keywordsLoop idx chars ws

/-- Row::highlight_keywords_primary (row.rs 246–253). -/
def highlightKeywordsPrimary (opts : HighlightingOptions) (idx : Nat) (chars : List Char) :
    Option (List HType) :=
  keywordsLoop idx chars opts.keywordsPrimary

/-- The scan loop of Row::highlight (row.rs 260–269): recognizers are
tried in priority order at the current position; the winner's pushed
run advances the cursor by its own length (each push in the source is
paired with `*idx += 1`); an unclaimed position gets None and advances
by one. -/
def highlightLoop (opts : HighlightingOptions) (chars : List Char) (idx : Nat)
    (hl : List HType) : List HType :=
  match h0 : chars[idx]? with
  | none => hl
  | some c =>
    match h1 : highlightChar opts idx c chars with
    | some add => highlightLoop opts chars (idx + add.length) (hl ++ add)
    | none =>
    match h2 : highlightComment opts idx c chars with
    | some add => highlightLoop opts chars (idx + add.length) (hl ++ add)
    | none =>
    match h3 : highlightString opts idx c chars with
    | some add => highlightLoop opts chars (idx + add.length) (hl ++ add)
    | none =>
    match h4 : highlightNumber opts idx c chars with
    | some add => highlightLoop opts chars (idx + add.length) (hl ++ add)
    | none =>
    match h5 : highlightKeywordsPrimary opts idx chars with
    | some add => highlightLoop opts chars (idx + add.length) (hl ++ add)
    | none => highlightLoop opts chars (idx + 1) (hl ++ [HType.None])
termination_by chars.length - idx
decreasing_by
  · have hidx : idx < chars.length := (List.getElem?_eq_some.mp h0).1
    have hadd : 1 ≤ add.length := by
      rw [highlightChar] at h1
      split at h1
      · split at h1
        · split at h1
          · split at h1
            · simp only [Option.some.injEq] at h1
              subst h1
              simp only [List.length_replicate]
              split <;> omega
            · exact absurd h1 (by simp)
          · exact absurd h1 (by simp)
        · exact absurd h1 (by simp)
      · exact absurd h1 (by simp)
    omega
  · have hidx : idx < chars.length := (List.getElem?_eq_some.mp h0).1
    have hadd : 1 ≤ add.length := by
      rw [highlightComment] at h2
      split at h2
      · split at h2
        · split at h2
          · simp only [Option.some.injEq] at h2
            subst h2
            simp only [List.length_replicate]
            omega
          · exact absurd h2 (by simp)
        · exact absurd h2 (by simp)
      · exact absurd h2 (by simp)
    omega
  · have hidx : idx < chars.length := (List.getElem?_eq_some.mp h0).1
    have hadd : 1 ≤ add.length := by
      rw [highlightString] at h3
      split at h3
      · simp only [Option.some.injEq] at h3
        subst h3
        simp
      · exact absurd h3 (by simp)
    omega
  · have hidx : idx < chars.length := (List.getElem?_eq_some.mp h0).1
    have hadd : 1 ≤ add.length := by
      have hrun : ∀ l : List Char, 1 ≤ (numberRun l).length := by
        intro l
        cases l with
        | nil => simp [numberRun]
        | cons nc rest =>
          rw [numberRun]
          split <;> simp
      rw [highlightNumber] at h4
      split at h4
      · split at h4
        · split at h4
          · split at h4
            · exact absurd h4 (by simp)
            · simp only [Option.some.injEq] at h4
              subst h4
              exact hrun _
          · exact absurd h4 (by simp)
        · simp only [Option.some.injEq] at h4
          subst h4
          exact hrun _
      · exact absurd h4 (by simp)
    omega
  · have hidx : idx < chars.length := (List.getElem?_eq_some.mp h0).1
    have hadd : 1 ≤ add.length := by
      rw [highlightKeywordsPrimary] at h5
      have : ∀ ws add2, keywordsLoop idx chars ws = some add2 → 1 ≤ add2.length := by
        intro ws
        induction ws with
        | nil => intro add2 hk; exact absurd hk (by simp [keywordsLoop])
        | cons w ws ih =>
          intro add2 hk
          rw [keywordsLoop] at hk
          split at hk
          · rename_i hstr
            rw [highlightStr] at hstr
            split at hstr
            · exact absurd hstr (by simp)
            · split at hstr
              · simp only [Option.some.injEq] at hstr
                simp only [Option.some.injEq] at hk
                subst hk
                subst hstr
                simp only [List.length_replicate]
                rename_i hne _
                cases hw : (by assumption : List Char) with
                | nil => exact absurd hw hne
                | cons x xs =>
                  have : 1 ≤ Char.utf8Size x := Char.utf8Size_pos x
                  simp [utf8Len, hw]
                  omega
              · exact absurd hstr (by simp)
          · exact ih add2 hk
      exact this _ add h5
    omega
  · have hidx : idx < chars.length := (List.getElem?_eq_some.mp h0).1
    omega

/-- Row::highlight (row.rs 255–271): reset the highlight array, run
the scan loop over the characters of the payload from position 0, then
overlay the search-match pass. -/
def Row.highlight (r : Row) (opts : HighlightingOptions) (word : Option (List Char)) :
    Option Row :=
  Row.highlightMatch { r with highlighting := highlightLoop opts r.string 0 [] } word

/-- An abstract output token of Row::render: a foreground style change
for a highlight category (`color::Fg(type.to_color())`), the final
reset (`color::Fg(color::Reset)`), or one display character.  The
termion escape strings are external; each category maps to one color
(spec §4.2), so a style change is determined by its category. -/
inductive RItem where
  | style (t : HType)
  | reset
  | chr (c : Char)
deriving DecidableEq, Repr

/-- The render loop of Row::render (row.rs 33–46): `gs` are the
clusters from index `i` on, `n` the remaining `take` budget, `cur` the
last emitted category (initially None).  For each cluster's first
character: emit a style change only when its category (out-of-range
lookups defaulting to None) differs from `cur`, then the character,
with a literal tab expanding to two spaces. -/
def renderLoop (hl : List HType) (cur : HType) (i : Nat) :
    List (List Char) → Nat → List RItem
  | _, 0 => []
  | [], _ + 1 => []
  | g :: gs, n + 1 =>
    match g.head? with
    | none => renderLoop hl cur (i + 1) gs n
    | some c =>
      if (hl[i]?.getD HType.None) ≠ cur then
        RItem.style (hl[i]?.getD HType.None) ::
          ((if c = '\t' then [RItem.chr ' ', RItem.chr ' '] else [RItem.chr c]) ++
            renderLoop hl (hl[i]?.getD HType.None) (i + 1) gs n)
      else
        (if c = '\t' then [RItem.chr ' ', RItem.chr ' '] else [RItem.chr c]) ++
          renderLoop hl cur (i + 1) gs n

/-- Row::render (row.rs 27–50): clamp `e` to the payload's byte
length, `s` to `e`, walk the clusters skipping `s` and taking `e - s`,
and always append the reset token. -/
def Row.render (r : Row) (s e : Nat) : List RItem :=
  let e2 := min e (utf8Len r.string)
  let s2 := min s e2
  renderLoop r.highlighting HType.None s2 ((graphemes r.string).drop s2) (e2 - s2)
    ++ [RItem.reset]

/-- The display characters of a render output. -/
def renderChars (out : List RItem) : List Char :=
  out.filterMap (fun it =>
    match it with
    | RItem.chr c => some c
    | _ => none)

/-- The style-change categories of a render output, in order. -/
def renderStyles (out : List RItem) : List HType :=
  out.filterMap (fun it =>
    match it with
    | RItem.style t => some t
    | _ => none)

/-- A cursor/offset position (editor.rs Position; x = column, y =
line/row). -/
structure Position where
  x : Nat
  y : Nat
deriving DecidableEq, Repr

/-- Editor::scroll (editor.rs 290–306): recompute the scroll offset
from the cursor position and the terminal width/height.  The
`saturating_add`/`saturating_sub` of the source agree with `Nat`
addition and truncated subtraction. -/
def scroll (cursorPos : Position) (width height : Nat) (offset : Position) : Position :=
  { y := if cursorPos.y < offset.y then cursorPos.y
         else if cursorPos.y ≥ offset.y + height then cursorPos.y - height + 1
         else offset.y,
    x := if cursorPos.x < offset.x then cursorPos.x
         else if cursorPos.x ≥ offset.x + width then cursorPos.x - width + 1
         else offset.x }

/-- The status message Editor::save surfaces (editor.rs 142–147),
as a function of whether `Document::save()` returned Ok.  Both
branches of the source set the same text. -/
def saveStatusText (saveResultOk : Bool) : String :=
  if saveResultOk then ("File saved successfully.")
  else ("File saved successfully.")

/-- A window match at cluster index `j` against the clusters `gs` of a
line: the query is a prefix of the flattened clusters from `j` on
(grapheme-aligned occurrence). -/
def gMatch (gs : List (List Char)) (q : List Char) (j : Nat) : Prop :=
  ∃ t, (gs.drop j).flatten = q ++ t

/-- Cluster list with each cluster nonempty and continued only by
combining marks. -/
def ClusterOk (g : List Char) : Prop :=
  ∃ d ds, g = d :: ds ∧ ds.all isCombining = true

/-- Cluster starting with a non-combining character. -/
def startsNC (g : List Char) : Prop :=
  ∃ d ds, g = d :: ds ∧ isCombining d = false

/-- Invariant of segmentation output: every cluster is well formed and
every cluster after the first starts with a non-combining character
(so rejoining resegments to the same clusters). -/
def SegInv (l : List (List Char)) : Prop :=
  (∀ g ∈ l, ClusterOk g) ∧ ∀ g ∈ l.drop 1, startsNC g

/-- Sum of cluster lengths. -/
def sumLen (l : List (List Char)) : Nat := (l.map List.length).sum

/-- A configuration with only string highlighting active (used to
exercise the unterminated-string path). -/
def stringsOnlyOpts : HighlightingOptions :=
  { numbers := false, strings := true, characters := false, comments := false,
    keywordsPrimary := [] }

/-- A configuration with only character-literal highlighting active. -/
def charsOnlyOpts : HighlightingOptions :=
  { numbers := false, strings := false, characters := true, comments := false,
    keywordsPrimary := [] }
theorem segInv_graphemes (s : List Char) : SegInv (graphemes s) := by
  induction s with
  | nil =>
    exact ⟨fun g h => absurd h (by simp [graphemes]), fun g h => absurd h (by simp [graphemes])⟩
  | cons c rest ih =>
    obtain ⟨hok, hnc⟩ := ih
    rw [graphemes]
    cases hx : graphemes rest with
    | nil =>
      refine ⟨fun g hg => ?_, fun g hg => ?_⟩
      · simp at hg; exact ⟨c, [], hg, rfl⟩
      · simp at hg
    | cons g gs =>
      rw [hx] at hok hnc
      cases g with
      | nil =>
        exact absurd (hok [] (by simp)) (by rintro ⟨d, ds, h, -⟩; exact List.noConfusion h)
      | cons d ds =>
        have hall : ds.all isCombining = true := by
          obtain ⟨d', ds', hdd, hall⟩ := hok (d :: ds) (by simp)
          rw [List.cons.injEq] at hdd
          obtain ⟨rfl, rfl⟩ := hdd
          exact hall
        change SegInv (if isCombining d = true then (c :: (d :: ds)) :: gs else [c] :: (d :: ds) :: gs)
        by_cases hd : isCombining d
        · rw [if_pos hd]
          refine ⟨fun g2 hg2 => ?_, fun g2 hg2 => ?_⟩
          · rcases List.mem_cons.mp hg2 with rfl | hmem
            · exact ⟨c, d :: ds, rfl, by simp [List.all_cons, hd, hall]⟩
            · exact hok g2 (List.mem_cons_of_mem _ hmem)
          · simp only [List.drop_one, List.tail_cons] at hg2
            exact hnc g2 (by simpa using hg2)
        · rw [if_neg hd]
          refine ⟨fun g2 hg2 => ?_, fun g2 hg2 => ?_⟩
          · rcases List.mem_cons.mp hg2 with rfl | hmem
            · exact ⟨c, [], rfl, rfl⟩
            · exact hok g2 hmem
          · simp only [List.drop_one, List.tail_cons] at hg2
            rcases List.mem_cons.mp hg2 with rfl | hmem
            · exact ⟨d, ds, rfl, by simpa using hd⟩
            · exact hnc g2 (by simpa using hmem)

theorem graphemes_flatten (s : List Char) : (graphemes s).flatten = s := by
  induction s with
  | nil => rfl
  | cons c rest ih =>
    rw [graphemes]
    cases hx : graphemes rest with
    | nil => rw [hx] at ih; simp at ih; simp [ih]
    | cons g gs =>
      rw [hx] at ih
      cases g with
      | nil => simp at ih ⊢; simpa using ih
      | cons d ds =>
        change (if isCombining d = true then (c :: (d :: ds)) :: gs
                else [c] :: (d :: ds) :: gs).flatten = c :: rest
        by_cases hd : isCombining d <;> simp [hd] <;> simpa using ih

theorem graphemes_cons_head (c : Char) (rest : List Char) :
    ∃ g gs, graphemes (c :: rest) = (c :: g) :: gs := by
  rw [graphemes]
  cases graphemes rest with
  | nil => exact ⟨[], [], rfl⟩
  | cons g gs =>
    cases g with
    | nil => exact ⟨[], gs, rfl⟩
    | cons d ds =>
      change ∃ g2 gs2,
        (if isCombining d = true then (c :: (d :: ds)) :: gs else [c] :: (d :: ds) :: gs)
          = (c :: g2) :: gs2
      by_cases hd : isCombining d
      · exact ⟨d :: ds, gs, by simp [hd]⟩
      · exact ⟨[], (d :: ds) :: gs, by simp [hd]⟩

theorem graphemes_cluster_append (d : Char) (ds s : List Char)
    (hds : ds.all isCombining = true)
    (hs : s = [] ∨ ∃ c t, s = c :: t ∧ isCombining c = false) :
    graphemes (d :: ds ++ s) = (d :: ds) :: graphemes s := by
  induction ds generalizing d with
  | nil =>
    rcases hs with rfl | ⟨c, t, rfl, hc⟩
    · rfl
    · obtain ⟨g, gs, hg⟩ := graphemes_cons_head c t
      simp only [List.nil_append, List.cons_append]
      rw [graphemes, hg]
      change (if isCombining c = true then (d :: (c :: g)) :: gs
              else [d] :: (c :: g) :: gs) = [d] :: (c :: g) :: gs
      rw [if_neg (by simp [hc])]
  | cons d2 ds2 ih =>
    rw [List.all_cons, Bool.and_eq_true] at hds
    have hrec := ih d2 hds.2
    have hstep : (d :: (d2 :: ds2) ++ s) = d :: ((d2 :: ds2) ++ s) := by simp
    rw [hstep, graphemes, hrec]
    change (if isCombining d2 = true then (d :: (d2 :: ds2)) :: graphemes s
            else [d] :: (d2 :: ds2) :: graphemes s) = (d :: d2 :: ds2) :: graphemes s
    rw [if_pos hds.1]

theorem graphemes_length_le (s : List Char) : (graphemes s).length ≤ s.length := by
  induction s with
  | nil => simp [graphemes]
  | cons c rest ih =>
    rw [graphemes]
    cases hx : graphemes rest with
    | nil => simp
    | cons g gs =>
      rw [hx] at ih
      cases g with
      | nil => simp at ih ⊢; omega
      | cons d ds =>
        change (if isCombining d = true then (c :: (d :: ds)) :: gs
                else [c] :: (d :: ds) :: gs).length ≤ (c :: rest).length
        by_cases hd : isCombining d <;> simp [hd] at ih ⊢ <;> omega

theorem graphemes_flatten_of_segInv (l : List (List Char)) (h : SegInv l) :
    graphemes l.flatten = l := by
  induction l with
  | nil => rfl
  | cons g gs ih =>
    obtain ⟨hok, hnc⟩ := h
    simp only [List.drop_one, List.tail_cons] at hnc
    obtain ⟨d, ds, rfl, hall⟩ := hok g (by simp)
    have hside : gs.flatten = [] ∨ ∃ c t, gs.flatten = c :: t ∧ isCombining c = false := by
      cases gs with
      | nil => exact Or.inl rfl
      | cons g2 gs2 =>
        obtain ⟨c, t, hg2, hc⟩ := hnc g2 (by simp)
        exact Or.inr ⟨c, t ++ gs2.flatten, by simp [hg2], hc⟩
    rw [List.flatten_cons, graphemes_cluster_append d ds gs.flatten hall hside]
    congr 1
    apply ih
    refine ⟨fun g2 hg2 => hok g2 (by simp [hg2]), fun g2 hg2 => ?_⟩
    exact hnc g2 (List.drop_subset 1 gs hg2)

theorem segInv_of_parts (l m : List (List Char))
    (hsub : ∀ g ∈ m, g ∈ l) (hsub1 : ∀ g ∈ m.drop 1, g ∈ l.drop 1)
    (h : SegInv l) : SegInv m :=
  ⟨fun g hg => h.1 g (hsub g hg), fun g hg => h.2 g (hsub1 g hg)⟩

theorem segInv_take (l : List (List Char)) (n : Nat) (h : SegInv l) : SegInv (l.take n) := by
  refine segInv_of_parts l _ (fun g hg => List.take_subset n l hg) (fun g hg => ?_) h
  rw [List.drop_take] at hg
  exact List.take_subset _ _ hg

theorem segInv_drop (l : List (List Char)) (n : Nat) (h : SegInv l) : SegInv (l.drop n) := by
  refine segInv_of_parts l _ (fun g hg => List.drop_subset n l hg) (fun g hg => ?_) h
  rw [List.drop_drop] at hg
  have : List.drop (n + 1) l = List.drop n (List.drop 1 l) := by
    rw [List.drop_drop]; congr 1; omega
  rw [this] at hg
  exact List.drop_subset _ _ hg

theorem segInv_eraseIdx (l : List (List Char)) (i : Nat) (h : SegInv l) :
    SegInv (l.eraseIdx i) := by
  refine segInv_of_parts l _ (fun g hg => List.eraseIdx_subset l i hg) (fun g hg => ?_) h
  cases l with
  | nil => simp [List.eraseIdx] at hg
  | cons a t =>
    cases i with
    | zero =>
      simp only [List.eraseIdx_cons_zero] at hg
      simp only [List.drop_one, List.tail_cons]
      exact List.drop_subset 1 t hg
    | succ j =>
      simp only [List.eraseIdx_cons_succ, List.drop_one, List.tail_cons] at hg ⊢
      exact List.eraseIdx_subset t j hg

theorem insertLoop_snd_gt (a : Nat) (c : Char) (i : Nat) (gs : List (List Char))
    (h : a < i) : (insertLoop a c i gs).2 = gs.length := by
  induction gs generalizing i with
  | nil => rfl
  | cons g gs ih =>
    rw [insertLoop]
    rw [if_neg (by omega)]
    simp [ih (i + 1) (by omega)]

theorem insertLoop_snd_le (a : Nat) (c : Char) (i : Nat) (gs : List (List Char))
    (h : i ≤ a) :
    (insertLoop a c i gs).2 = gs.length + if a - i < gs.length then 1 else 0 := by
  induction gs generalizing i with
  | nil => simp [insertLoop]
  | cons g gs ih =>
    rw [insertLoop]
    by_cases hia : i = a
    · rw [if_pos hia]
      subst hia
      simp [insertLoop_snd_gt i c (i + 1) gs (Nat.lt_succ_self i)]
    · rw [if_neg hia]
      simp only [ih (i + 1) (by omega)]
      have h1 : a - i = a - (i + 1) + 1 := by omega
      rw [h1]
      simp only [List.length_cons]
      split_ifs with h2 h3 h3 <;> omega

theorem deleteLoop_gt (a i : Nat) (gs : List (List Char)) (h : a < i) :
    deleteLoop a i gs = (gs.flatten, gs.length) := by
  induction gs generalizing i with
  | nil => rfl
  | cons g gs ih =>
    rw [deleteLoop]
    rw [if_pos (by omega)]
    simp [ih (i + 1) (by omega)]

theorem deleteLoop_le (a i : Nat) (gs : List (List Char)) (h : i ≤ a) :
    deleteLoop a i gs
      = ((gs.eraseIdx (a - i)).flatten,
         if a - i < gs.length then gs.length - 1 else gs.length) := by
  induction gs generalizing i with
  | nil => simp [deleteLoop, List.eraseIdx]
  | cons g gs ih =>
    rw [deleteLoop]
    by_cases hia : i = a
    · rw [if_neg (by omega)]
      subst hia
      rw [deleteLoop_gt i (i + 1) gs (Nat.lt_succ_self i)]
      simp
    · rw [if_pos (by omega)]
      simp only [ih (i + 1) (by omega)]
      have h1 : a - i = a - (i + 1) + 1 := by omega
      rw [h1, List.eraseIdx_cons_succ, List.flatten_cons]
      simp only [List.length_cons, Prod.mk.injEq]
      refine ⟨trivial, ?_⟩
      split_ifs with h2 h3 h3 <;> omega

theorem splitLoop_eq (a i : Nat) (gs : List (List Char)) :
    splitLoop a i gs
      = (((gs.take (a - i)).flatten, min (a - i) gs.length),
         ((gs.drop (a - i)).flatten, gs.length - (a - i))) := by
  induction gs generalizing i with
  | nil => simp [splitLoop]
  | cons g gs ih =>
    rw [splitLoop]
    by_cases hia : i < a
    · rw [if_pos hia]
      simp only [ih (i + 1)]
      have h1 : a - i = a - (i + 1) + 1 := by omega
      rw [h1]
      simp only [List.take_succ_cons, List.drop_succ_cons, List.flatten_cons,
        List.length_cons, Prod.mk.injEq]
      refine ⟨⟨trivial, by omega⟩, trivial, by omega⟩
    · rw [if_neg hia]
      have h0 : a - i = 0 := by omega
      have h0' : a - (i + 1) = 0 := by omega
      simp only [ih (i + 1), h0, h0']
      simp

theorem row_delete_char (r : Row) (hwf : r.WF) (a : Nat) (ha : a < r.len) :
    (r.delete a).WF ∧ (r.delete a).len = r.len - 1 ∧
      (r.delete a).string = ((graphemes r.string).eraseIdx a).flatten := by
  rw [Row.delete, if_neg (by omega)]
  simp only [deleteLoop_le a 0 (graphemes r.string) (Nat.zero_le a), Nat.sub_zero]
  have hlt : a < (graphemes r.string).length := by rw [← hwf]; exact ha
  have hflat : graphemes ((graphemes r.string).eraseIdx a).flatten
      = (graphemes r.string).eraseIdx a :=
    graphemes_flatten_of_segInv _ (segInv_eraseIdx _ a (segInv_graphemes r.string))
  refine ⟨?_, ?_, trivial⟩
  · show (if a < (graphemes r.string).length then (graphemes r.string).length - 1
        else (graphemes r.string).length) = _
    rw [hflat, if_pos hlt, List.length_eraseIdx]
    simp [hlt]
  · rw [if_pos hlt, hwf]

theorem row_insert_len (r : Row) (hwf : r.WF) (a : Nat) (c : Char) :
    (r.insert a c).len = r.len + 1 := by
  rw [Row.insert]
  by_cases hge : a ≥ r.len
  · rw [if_pos hge]
  · rw [if_neg hge]
    have hwf2 : r.len = (graphemes r.string).length := hwf
    show (insertLoop a c 0 (graphemes r.string)).2 = r.len + 1
    rw [insertLoop_snd_le a c 0 (graphemes r.string) (Nat.zero_le a), Nat.sub_zero,
      if_pos (by omega), ← hwf2]

/-- C2 (corrected): for a well-formed Line and a grapheme index `i`
strictly inside `[0, length)`, deleting at `i` and re-inserting any
character at `i` restores the original length.  (At `i = length` the
delete is a no-op but the insert appends, growing the line; see the
counterexample.) -/
theorem c2_delete_insert_len (r : Row) (hwf : r.WF) (i : Nat) (c : Char)
    (hi : i < r.len) : ((r.delete i).insert i c).len = r.len := by
  obtain ⟨hwf2, hlen2, -⟩ := row_delete_char r hwf i hi
  rw [row_insert_len _ hwf2 i c, hlen2]
  omega

/-- C2 witness: a concrete well-formed line and in-range index on
which the (corrected) round trip preserves the length. -/
theorem c2_delete_insert_len_witness :
    (Row.fromStr ("ab".data)).WF ∧ 0 < (Row.fromStr ("ab".data)).len ∧
      (((Row.fromStr ("ab".data)).delete 0).insert 0 'x').len
        = (Row.fromStr ("ab".data)).len :=
  ⟨by decide, by decide, c2_delete_insert_len _ (by decide) 0 'x' (by decide)⟩

/-- C2 counterexample: at `i = L.length()` (allowed by the claim's
closed interval), delete is a no-op and insert appends, so the length
grows from 1 to 2 instead of being restored. -/
theorem c2_counterexample :
    ¬ ((((Row.fromStr ("a".data)).delete 1).insert 1 'b').len
        = (Row.fromStr ("a".data)).len) := by decide

/-- C3 (confirmed): splitting a well-formed Line at any `at` in
`[0, length]` and appending the returned part back onto the retained
part reconstructs the original payload and grapheme-count length. -/
theorem c3_split_append (r : Row) (hwf : r.WF) (a : Nat) (ha : a ≤ r.len) :
    ((r.split a).1.append (r.split a).2).string = r.string ∧
      ((r.split a).1.append (r.split a).2).len = r.len := by
  rw [Row.split, Row.append]
  simp only [splitLoop_eq a 0 (graphemes r.string), Nat.sub_zero]
  constructor
  · show ((graphemes r.string).take a).flatten ++ ((graphemes r.string).drop a).flatten
        = r.string
    rw [← List.flatten_append, List.take_append_drop, graphemes_flatten]
  · show min a (graphemes r.string).length + ((graphemes r.string).length - a) = r.len
    rw [hwf]
    omega

/-- C3 witness: concrete split/append round trip, including the
boundary position `at = length`. -/
theorem c3_split_append_witness :
    (Row.fromStr ("abc".data)).WF ∧ 2 ≤ (Row.fromStr ("abc".data)).len ∧
      (((Row.fromStr ("abc".data)).split 2).1.append
          ((Row.fromStr ("abc".data)).split 2).2).string
        = (Row.fromStr ("abc".data)).string ∧
      (((Row.fromStr ("abc".data)).split 2).1.append
          ((Row.fromStr ("abc".data)).split 2).2).len
        = (Row.fromStr ("abc".data)).len := by
  refine ⟨by decide, by decide, ?_⟩
  exact c3_split_append _ (by decide) 2 (by decide)

/-- C5 (corrected): insert never fails and out-of-range positions
append; the cached length field grows by exactly one for every
well-formed line, position and character.  The true grapheme count of
the payload, however, does not always grow (a combining character can
merge with the preceding cluster; see the counterexample). -/
theorem c5_insert_clamp_len (r : Row) (hwf : r.WF) (a : Nat) (c : Char) :
    (r.insert a c).len = r.len + 1 ∧
      (a ≥ r.len → (r.insert a c).string = r.string ++ [c]) := by
  refine ⟨row_insert_len r hwf a c, fun hge => ?_⟩
  rw [Row.insert, if_pos hge]

/-- C5 witness: concrete in-range and past-the-end inserts. -/
theorem c5_insert_clamp_len_witness :
    (Row.fromStr ("ab".data)).WF ∧ 5 ≥ (Row.fromStr ("ab".data)).len ∧
      ((Row.fromStr ("ab".data)).insert 5 'z').len = (Row.fromStr ("ab".data)).len + 1 ∧
      ((Row.fromStr ("ab".data)).insert 5 'z').string
        = (Row.fromStr ("ab".data)).string ++ ['z'] := by
  have h := c5_insert_clamp_len (Row.fromStr ("ab".data)) (by decide) 5 'z'
  exact ⟨by decide, by decide, h.1, h.2 (by decide)⟩

/-- C5 counterexample: inserting the combining acute accent U+0301 at
the end of "a" merges with the preceding cluster, so the true grapheme
count stays 1 instead of growing to 2 (the cached length still becomes
2, out of sync with the payload). -/
theorem c5_counterexample :
    ¬ ((graphemes ((Row.fromStr ("a".data)).insert 1 (Char.ofNat 769)).string).length
        = (graphemes (Row.fromStr ("a".data)).string).length + 1) := by decide

theorem isPre_iff (q s : List Char) : isPre q s = true ↔ ∃ t, s = q ++ t := by
  induction q generalizing s with
  | nil => simp [isPre]
  | cons a as2 ih =>
    cases s with
    | nil => simp [isPre]
    | cons b bs =>
      rw [isPre]
      simp only [Bool.and_eq_true, beq_iff_eq]
      rw [ih bs]
      constructor
      · rintro ⟨rfl, t, rfl⟩
        exact ⟨t, rfl⟩
      · rintro ⟨t, ht⟩
        injection ht with h1 h2
        exact ⟨h1.symm, t, h2⟩

theorem isPre_nil_false (q : List Char) (hq : q ≠ []) : isPre q [] = false := by
  cases q with
  | nil => exact absurd rfl hq
  | cons a as2 => rfl

theorem strFind_some (hay q : List Char) (p : Nat) (h : strFind hay q = some p) :
    isPre q (hay.drop p) = true ∧ ∀ j, j < p → isPre q (hay.drop j) = false := by
  induction hay generalizing p with
  | nil =>
    rw [strFind] at h
    split at h
    · rename_i hpre
      cases h
      exact ⟨hpre, fun j hj => absurd hj (by omega)⟩
    · exact absurd h (by simp)
  | cons c t ih =>
    rw [strFind] at h
    split at h
    · rename_i hpre
      cases h
      exact ⟨hpre, fun j hj => absurd hj (by omega)⟩
    · rename_i hpre
      obtain ⟨p2, hp2, rfl⟩ := Option.map_eq_some'.mp h
      obtain ⟨h1, h2⟩ := ih p2 hp2
      refine ⟨by simpa [List.drop_succ_cons] using h1, fun j hj => ?_⟩
      cases j with
      | zero => simpa using Bool.of_not_eq_true hpre
      | succ j2 => simpa [List.drop_succ_cons] using h2 j2 (by omega)

theorem strFind_none (hay q : List Char) (h : strFind hay q = none) :
    ∀ j, isPre q (hay.drop j) = false := by
  induction hay with
  | nil =>
    rw [strFind] at h
    split at h
    · exact absurd h (by simp)
    · intro j
      rename_i hpre
      simpa using Bool.of_not_eq_true hpre
  | cons c t ih =>
    rw [strFind] at h
    split at h
    · exact absurd h (by simp)
    · rename_i hpre
      intro j
      cases j with
      | zero => simpa using Bool.of_not_eq_true hpre
      | succ j2 =>
        have ht : strFind t q = none := by
          cases hx : strFind t q with
          | none => rfl
          | some v => rw [hx] at h; exact absurd h (by simp)
        simpa [List.drop_succ_cons] using ih ht j2

theorem strRFind_none (hay q : List Char) (hq : q ≠ []) (h : strRFind hay q = none) :
    ∀ j, isPre q (hay.drop j) = false := by
  induction hay with
  | nil => intro j; simpa using isPre_nil_false q hq
  | cons c t ih =>
    rw [strRFind] at h
    split at h
    · exact absurd h (by simp)
    · rename_i hnone
      intro j
      cases j with
      | zero =>
        split at h
        · exact absurd h (by simp)
        · rename_i hpre
          simpa using Bool.of_not_eq_true hpre
      | succ j2 => simpa [List.drop_succ_cons] using ih hnone j2

theorem strRFind_some (hay q : List Char) (p : Nat) (hq : q ≠ [])
    (h : strRFind hay q = some p) :
    isPre q (hay.drop p) = true ∧ ∀ j, p < j → isPre q (hay.drop j) = false := by
  induction hay generalizing p with
  | nil =>
    rw [strRFind] at h
    rw [isPre_nil_false q hq] at h
    exact absurd h (by simp)
  | cons c t ih =>
    rw [strRFind] at h
    split at h
    · rename_i p2 hp2
      cases h
      obtain ⟨h1, h2⟩ := ih p2 hp2
      refine ⟨by simpa [List.drop_succ_cons] using h1, fun j hj => ?_⟩
      cases j with
      | zero => omega
      | succ j2 => simpa [List.drop_succ_cons] using h2 j2 (by omega)
    · rename_i hnone
      split at h
      · rename_i hpre
        cases h
        refine ⟨by simpa using hpre, fun j hj => ?_⟩
        cases j with
        | zero => omega
        | succ j2 => simpa [List.drop_succ_cons] using strRFind_none t q hq hnone j2
      · exact absurd h (by simp)

theorem offsetLookup_some (os : List Nat) (p k : Nat) (h : offsetLookup os p = some k) :
    os[k]? = some p := by
  induction os generalizing k with
  | nil => simp [offsetLookup] at h
  | cons o os ih =>
    rw [offsetLookup] at h
    split at h
    · rename_i he
      cases h
      simpa using he
    · obtain ⟨k2, hk2, rfl⟩ := Option.map_eq_some'.mp h
      simpa [List.getElem?_cons_succ] using ih k2 hk2

theorem cumOffsets_getElem? (l : List (List Char)) (k : Nat) (hk : k < l.length) :
    (cumOffsets l)[k]? = some (sumLen (l.take k)) := by
  induction l generalizing k with
  | nil => simp at hk
  | cons g gs ih =>
    cases k with
    | zero => simp [cumOffsets, sumLen]
    | succ k2 =>
      rw [cumOffsets]
      rw [List.getElem?_cons_succ, List.getElem?_map, ih k2 (by simpa using hk)]
      simp [sumLen, List.take_succ_cons]
      omega

theorem cumOffsets_length (l : List (List Char)) : (cumOffsets l).length = l.length := by
  induction l with
  | nil => rfl
  | cons g gs ih => simp [cumOffsets, ih]

theorem flatten_drop (l : List (List Char)) (n : Nat) :
    (l.drop n).flatten = l.flatten.drop (sumLen (l.take n)) := by
  induction l generalizing n with
  | nil => simp [sumLen]
  | cons g gs ih =>
    cases n with
    | zero => simp [sumLen]
    | succ n2 =>
      simp only [List.drop_succ_cons, List.take_succ_cons, List.flatten_cons]
      rw [ih n2]
      have hs : sumLen (g :: gs.take n2) = g.length + sumLen (gs.take n2) := by
        simp [sumLen]
      rw [hs, List.drop_append]

theorem sumLen_take_lt (l : List (List Char)) (j k : Nat)
    (hne : ∀ g ∈ l, g ≠ []) (hjk : j < k) (hk : k ≤ l.length) :
    sumLen (l.take j) < sumLen (l.take k) := by
  induction l generalizing j k with
  | nil => simp at hk; omega
  | cons g gs ih =>
    have hg : g ≠ [] := hne g (by simp)
    have hg1 : 1 ≤ g.length := by
      cases g with
      | nil => exact absurd rfl hg
      | cons x xs => simp
    cases k with
    | zero => omega
    | succ k2 =>
      cases j with
      | zero =>
        have : sumLen ((g :: gs).take (k2 + 1)) = g.length + sumLen (gs.take k2) := by
          simp [sumLen, List.take_succ_cons]
        rw [this]
        simp [sumLen]
        omega
      | succ j2 =>
        have h1 : sumLen ((g :: gs).take (k2 + 1)) = g.length + sumLen (gs.take k2) := by
          simp [sumLen, List.take_succ_cons]
        have h2 : sumLen ((g :: gs).take (j2 + 1)) = g.length + sumLen (gs.take j2) := by
          simp [sumLen, List.take_succ_cons]
        rw [h1, h2]
        have := ih j2 k2 (fun g2 hg2 => hne g2 (by simp [hg2])) (by omega) (by simpa using hk)
        omega

theorem segInv_clusters_ne_nil (l : List (List Char)) (h : SegInv l) :
    ∀ g ∈ l, g ≠ [] := by
  intro g hg hnil
  obtain ⟨d, ds, heq, -⟩ := h.1 g hg
  rw [hnil] at heq
  exact List.noConfusion heq

theorem find_forward_char (r : Row) (hwf : r.WF) (q : List Char) (a m : Nat)
    (h : r.find q a SearchDirection.Forward = some m) :
    a ≤ m ∧ m < r.len ∧ gMatch (graphemes r.string) q m ∧
      ∀ j, a ≤ j → j < m → ¬ gMatch (graphemes r.string) q j := by
  have hwf2 : r.len = (graphemes r.string).length := hwf
  rw [Row.find] at h
  by_cases hg : a > r.len ∨ q = []
  · rw [if_pos hg] at h
    exact absurd h (by simp)
  rw [if_neg hg] at h
  push_neg at hg
  obtain ⟨ha, hq⟩ := hg
  simp only [reduceIte] at h
  have htake : ((graphemes r.string).drop a).take (r.len - a) = (graphemes r.string).drop a := by
    apply List.take_of_length_le
    rw [List.length_drop, ← hwf2]
  rw [htake] at h
  split at h
  · rename_i p hsf
    obtain ⟨k, hk, hm⟩ := Option.map_eq_some'.mp h
    subst hm
    have hsub : graphemes (((graphemes r.string).drop a).flatten)
        = (graphemes r.string).drop a :=
      graphemes_flatten_of_segInv _ (segInv_drop _ a (segInv_graphemes r.string))
    rw [hsub] at hk
    have hos := offsetLookup_some _ p k hk
    have hklen : k < ((graphemes r.string).drop a).length := by
      have h1 := (List.getElem?_eq_some.mp hos).1
      rwa [cumOffsets_length] at h1
    have hp : p = sumLen (((graphemes r.string).drop a).take k) := by
      have h2 := cumOffsets_getElem? _ k hklen
      rw [hos] at h2
      exact Option.some.inj h2
    obtain ⟨hpre, hmin⟩ := strFind_some _ q p hsf
    have hdropk : ((graphemes r.string).drop a).drop k = (graphemes r.string).drop (a + k) :=
      List.drop_drop k a (graphemes r.string)
    refine ⟨Nat.le_add_right a k, ?_, ?_, ?_⟩
    · rw [List.length_drop] at hklen
      omega
    · rw [isPre_iff] at hpre
      obtain ⟨t, ht⟩ := hpre
      refine ⟨t, ?_⟩
      rw [← hdropk, flatten_drop, ← hp, ht]
    · intro j haj hjm hgm
      obtain ⟨t, ht⟩ := hgm
      have hj2 : j = a + (j - a) := by omega
      have hdropj : (graphemes r.string).drop j = ((graphemes r.string).drop a).drop (j - a) := by
        rw [List.drop_drop, Nat.add_sub_cancel' haj]
      rw [hdropj, flatten_drop] at ht
      have hplt : sumLen (((graphemes r.string).drop a).take (j - a)) < p := by
        rw [hp]
        exact sumLen_take_lt _ (j - a) k
          (segInv_clusters_ne_nil _ (segInv_drop _ a (segInv_graphemes r.string)))
          (by omega) (by omega)
      have hfalse := hmin _ hplt
      rw [ht] at hfalse
      rw [(isPre_iff q (q ++ t)).mpr ⟨t, rfl⟩] at hfalse
      exact Bool.noConfusion hfalse
  · exact absurd h (by simp)

theorem find_backward_char (r : Row) (hwf : r.WF) (q : List Char) (a m : Nat)
    (h : r.find q a SearchDirection.Backward = some m) :
    m < a ∧ gMatch ((graphemes r.string).take a) q m ∧
      ∀ j, m < j → j < a → ¬ gMatch ((graphemes r.string).take a) q j := by
  have hwf2 : r.len = (graphemes r.string).length := hwf
  rw [Row.find] at h
  by_cases hg : a > r.len ∨ q = []
  · rw [if_pos hg] at h
    exact absurd h (by simp)
  rw [if_neg hg] at h
  push_neg at hg
  obtain ⟨ha, hq⟩ := hg
  have hBF : ¬(SearchDirection.Backward = SearchDirection.Forward) := fun hc =>
    SearchDirection.noConfusion hc
  simp only [if_neg hBF] at h
  rw [List.drop_zero, Nat.sub_zero] at h
  split at h
  · rename_i p hsf
    obtain ⟨k, hk, hm⟩ := Option.map_eq_some'.mp h
    rw [Nat.zero_add] at hm
    subst hm
    have hsub : graphemes (((graphemes r.string).take a).flatten)
        = (graphemes r.string).take a :=
      graphemes_flatten_of_segInv _ (segInv_take _ a (segInv_graphemes r.string))
    rw [hsub] at hk
    have hos := offsetLookup_some _ p k hk
    have hklen : k < ((graphemes r.string).take a).length := by
      have h1 := (List.getElem?_eq_some.mp hos).1
      rwa [cumOffsets_length] at h1
    have hwlen : ((graphemes r.string).take a).length = a := by
      rw [List.length_take]
      omega
    have hp : p = sumLen (((graphemes r.string).take a).take k) := by
      have h2 := cumOffsets_getElem? _ k hklen
      rw [hos] at h2
      exact Option.some.inj h2
    obtain ⟨hpre, hmax⟩ := strRFind_some _ q p hq hsf
    refine ⟨by omega, ?_, ?_⟩
    · rw [isPre_iff] at hpre
      obtain ⟨t, ht⟩ := hpre
      refine ⟨t, ?_⟩
      rw [flatten_drop, ← hp, ht]
    · intro j hmj hja hgm
      obtain ⟨t, ht⟩ := hgm
      rw [flatten_drop] at ht
      have hpgt : p < sumLen (((graphemes r.string).take a).take j) := by
        rw [hp]
        exact sumLen_take_lt _ k j
          (segInv_clusters_ne_nil _ (segInv_take _ a (segInv_graphemes r.string)))
          (by omega) (by omega)
      have hfalse := hmax _ hpgt
      rw [ht] at hfalse
      rw [(isPre_iff q (q ++ t)).mpr ⟨t, rfl⟩] at hfalse
      exact Bool.noConfusion hfalse
  · exact absurd h (by simp)

theorem find_guard_none (r : Row) (q : List Char) (a : Nat) (dir : SearchDirection)
    (h : q = [] ∨ a > r.len) : r.find q a dir = none := by
  rw [Row.find, if_pos (Or.symm h)]

/-- C4 (confirmed): Row::find reports grapheme indices with the
directional asymmetry of the spec.  An empty query or a start past the
cached length yields no match.  A Forward result m is the lowest
grapheme-aligned match position in the window, with m >= at; a
Backward result m is the highest grapheme-aligned match position in
the clipped window [0, at), with m < at (a match must lie inside the
window's flattened text). -/
theorem c4_find_directional (r : Row) (hwf : r.WF) (q : List Char) (a : Nat) :
    (∀ dir, (q = [] ∨ a > r.len) → r.find q a dir = none) ∧
    (∀ m, r.find q a SearchDirection.Forward = some m →
      a ≤ m ∧ m < r.len ∧ gMatch (graphemes r.string) q m ∧
        ∀ j, a ≤ j → j < m → ¬ gMatch (graphemes r.string) q j) ∧
    (∀ m, r.find q a SearchDirection.Backward = some m →
      m < a ∧ gMatch ((graphemes r.string).take a) q m ∧
        ∀ j, m < j → j < a → ¬ gMatch ((graphemes r.string).take a) q j) :=
  ⟨fun dir h => find_guard_none r q a dir h,
   fun m h => find_forward_char r hwf q a m h,
   fun m h => find_backward_char r hwf q a m h⟩

/-- C4 witness: the spec's own scenario line "1testtest".  Forward
from 2 finds 4 (monotone, aligned); Backward from 5 finds 4 (the
rightmost match below 5); empty query yields none. -/
theorem c4_find_directional_witness :
    (Row.fromStr ("1testtest".data)).WF ∧
    (Row.fromStr ("1testtest".data)).find ("t".data) 2 SearchDirection.Forward = some 4 ∧
    2 ≤ 4 ∧ 4 < (Row.fromStr ("1testtest".data)).len ∧
    gMatch (graphemes (Row.fromStr ("1testtest".data)).string) ("t".data) 4 ∧
    (Row.fromStr ("1testtest".data)).find ("t".data) 5 SearchDirection.Backward = some 4 ∧
    gMatch ((graphemes (Row.fromStr ("1testtest".data)).string).take 5) ("t".data) 4 ∧
    (Row.fromStr ("1testtest".data)).find [] 2 SearchDirection.Forward = none := by
  have hthm := c4_find_directional (Row.fromStr ("1testtest".data)) (by decide) ("t".data) 2
  have hfwd : (Row.fromStr ("1testtest".data)).find ("t".data) 2 SearchDirection.Forward
      = some 4 := by decide
  obtain ⟨h1, h2, h3, -⟩ := hthm.2.1 4 hfwd
  have hthm5 := c4_find_directional (Row.fromStr ("1testtest".data)) (by decide) ("t".data) 5
  have hbwd : (Row.fromStr ("1testtest".data)).find ("t".data) 5 SearchDirection.Backward
      = some 4 := by decide
  obtain ⟨-, h5, -⟩ := hthm5.2.2 4 hbwd
  have hthme := c4_find_directional (Row.fromStr ("1testtest".data)) (by decide) [] 2
  exact ⟨by decide, hfwd, h1, h2, h3, hbwd, h5,
    hthme.1 SearchDirection.Forward (Or.inl rfl)⟩

theorem writeRange_length (hl : List HType) (i n : Nat) (hl2 : List HType)
    (h : writeRange hl i n = some hl2) : hl2.length = hl.length := by
  induction n generalizing hl i with
  | zero => rw [writeRange] at h; cases h; rfl
  | succ n2 ih =>
    rw [writeRange] at h
    split at h
    · have := ih (hl.set i HType.Match) (i + 1) h
      simpa using this
    · exact absurd h (by simp)

theorem hmLoop_length (r : Row) (w : List Char) (idx : Nat) (hl hl2 : List HType)
    (h : hmLoop r w idx hl = some hl2) : hl2.length = hl.length := by
  induction idx, hl using hmLoop.induct r w with
  | case1 idx hl hfind =>
    rw [hmLoop] at h
    split at h
    · cases h; rfl
    · rename_i m hfind2
      rw [hfind] at hfind2
      exact Option.noConfusion hfind2
  | case2 idx hl m hfind hnone =>
    rw [hmLoop] at h
    split at h
    · rename_i hfind2
      rw [hfind] at hfind2
      exact Option.noConfusion hfind2
    · rename_i m2 hfind2
      rw [hfind] at hfind2
      obtain rfl : m = m2 := Option.some.inj hfind2
      split at h
      · exact Option.noConfusion h
      · rename_i hl3 hwr
        rw [hnone] at hwr
        exact Option.noConfusion hwr
  | case3 idx hl m hfind hl3 hwr ih =>
    rw [hmLoop] at h
    split at h
    · rename_i hfind2
      rw [hfind] at hfind2
      exact Option.noConfusion hfind2
    · rename_i m2 hfind2
      rw [hfind] at hfind2
      obtain rfl : m = m2 := Option.some.inj hfind2
      split at h
      · exact Option.noConfusion h
      · rename_i hl4 hwr2
        rw [hwr] at hwr2
        obtain rfl : hl3 = hl4 := Option.some.inj hwr2
        have := ih h
        rw [this, writeRange_length hl m (graphemes w).length hl3 hwr]

theorem highlightLoop_step_none (opts : HighlightingOptions) (chars : List Char)
    (idx : Nat) (hl : List HType) (h : chars[idx]? = none) :
    highlightLoop opts chars idx hl = hl := by
  rw [highlightLoop]
  split
  · rfl
  · rename_i c h0
    rw [h] at h0
    exact Option.noConfusion h0

theorem highlightLoop_step_char (opts : HighlightingOptions) (chars : List Char)
    (idx : Nat) (hl : List HType) (c : Char) (add : List HType)
    (h0 : chars[idx]? = some c) (h1 : highlightChar opts idx c chars = some add) :
    highlightLoop opts chars idx hl
      = highlightLoop opts chars (idx + add.length) (hl ++ add) := by
  rw [highlightLoop]
  split
  · rename_i h0'
    rw [h0] at h0'
    exact Option.noConfusion h0'
  · rename_i c2 h0'
    rw [h0] at h0'
    obtain rfl : c = c2 := Option.some.inj h0'
    split
    · rename_i add2 h1'
      rw [h1] at h1'
      obtain rfl : add = add2 := Option.some.inj h1'
      rfl
    · rename_i h1'
      rw [h1] at h1'
      exact Option.noConfusion h1'

theorem highlightLoop_step_comment (opts : HighlightingOptions) (chars : List Char)
    (idx : Nat) (hl : List HType) (c : Char) (add : List HType)
    (h0 : chars[idx]? = some c)
    (hn1 : highlightChar opts idx c chars = none)
    (hs : highlightComment opts idx c chars = some add) :
    highlightLoop opts chars idx hl = highlightLoop opts chars (idx + add.length) (hl ++ add) := by
  rw [highlightLoop]
  split
  · rename_i h0x
    rw [h0] at h0x
    exact Option.noConfusion h0x
  · rename_i c2 h0x
    rw [h0] at h0x
    obtain rfl : c = c2 := Option.some.inj h0x
    split
    · rename_i addx hx
      rw [hn1] at hx
      exact Option.noConfusion hx
    · rename_i hx
      clear hx
      split
      · rename_i add2 hsx
        rw [hs] at hsx
        obtain rfl : add = add2 := Option.some.inj hsx
        rfl
      · rename_i hsx
        rw [hs] at hsx
        exact Option.noConfusion hsx

theorem highlightLoop_step_string (opts : HighlightingOptions) (chars : List Char)
    (idx : Nat) (hl : List HType) (c : Char) (add : List HType)
    (h0 : chars[idx]? = some c)
    (hn1 : highlightChar opts idx c chars = none)
    (hn2 : highlightComment opts idx c chars = none)
    (hs : highlightString opts idx c chars = some add) :
    highlightLoop opts chars idx hl = highlightLoop opts chars (idx + add.length) (hl ++ add) := by
  rw [highlightLoop]
  split
  · rename_i h0x
    rw [h0] at h0x
    exact Option.noConfusion h0x
  · rename_i c2 h0x
    rw [h0] at h0x
    obtain rfl : c = c2 := Option.some.inj h0x
    split
    · rename_i addx hx
      rw [hn1] at hx
      exact Option.noConfusion hx
    · rename_i hx
      clear hx
      split
      · rename_i addx hx
        rw [hn2] at hx
        exact Option.noConfusion hx
      · rename_i hx
        clear hx
        split
        · rename_i add2 hsx
          rw [hs] at hsx
          obtain rfl : add = add2 := Option.some.inj hsx
          rfl
        · rename_i hsx
          rw [hs] at hsx
          exact Option.noConfusion hsx

theorem highlightLoop_step_number (opts : HighlightingOptions) (chars : List Char)
    (idx : Nat) (hl : List HType) (c : Char) (add : List HType)
    (h0 : chars[idx]? = some c)
    (hn1 : highlightChar opts idx c chars = none)
    (hn2 : highlightComment opts idx c chars = none)
    (hn3 : highlightString opts idx c chars = none)
    (hs : highlightNumber opts idx c chars = some add) :
    highlightLoop opts chars idx hl = highlightLoop opts chars (idx + add.length) (hl ++ add) := by
  rw [highlightLoop]
  split
  · rename_i h0x
    rw [h0] at h0x
    exact Option.noConfusion h0x
  · rename_i c2 h0x
    rw [h0] at h0x
    obtain rfl : c = c2 := Option.some.inj h0x
    split
    · rename_i addx hx
      rw [hn1] at hx
      exact Option.noConfusion hx
    · rename_i hx
      clear hx
      split
      · rename_i addx hx
        rw [hn2] at hx
        exact Option.noConfusion hx
      · rename_i hx
        clear hx
        split
        · rename_i addx hx
          rw [hn3] at hx
          exact Option.noConfusion hx
        · rename_i hx
          clear hx
          split
          · rename_i add2 hsx
            rw [hs] at hsx
            obtain rfl : add = add2 := Option.some.inj hsx
            rfl
          · rename_i hsx
            rw [hs] at hsx
            exact Option.noConfusion hsx

theorem highlightLoop_step_keywords (opts : HighlightingOptions) (chars : List Char)
    (idx : Nat) (hl : List HType) (c : Char) (add : List HType)
    (h0 : chars[idx]? = some c)
    (hn1 : highlightChar opts idx c chars = none)
    (hn2 : highlightComment opts idx c chars = none)
    (hn3 : highlightString opts idx c chars = none)
    (hn4 : highlightNumber opts idx c chars = none)
    (hs : highlightKeywordsPrimary opts idx chars = some add) :
    highlightLoop opts chars idx hl = highlightLoop opts chars (idx + add.length) (hl ++ add) := by
  rw [highlightLoop]
  split
  · rename_i h0x
    rw [h0] at h0x
    exact Option.noConfusion h0x
  · rename_i c2 h0x
    rw [h0] at h0x
    obtain rfl : c = c2 := Option.some.inj h0x
    split
    · rename_i addx hx
      rw [hn1] at hx
      exact Option.noConfusion hx
    · rename_i hx
      clear hx
      split
      · rename_i addx hx
        rw [hn2] at hx
        exact Option.noConfusion hx
      · rename_i hx
        clear hx
        split
        · rename_i addx hx
          rw [hn3] at hx
          exact Option.noConfusion hx
        · rename_i hx
          clear hx
          split
          · rename_i addx hx
            rw [hn4] at hx
            exact Option.noConfusion hx
          · rename_i hx
            clear hx
            split
            · rename_i add2 hsx
              rw [hs] at hsx
              obtain rfl : add = add2 := Option.some.inj hsx
              rfl
            · rename_i hsx
              rw [hs] at hsx
              exact Option.noConfusion hsx

theorem highlightLoop_step_fallthrough (opts : HighlightingOptions) (chars : List Char)
    (idx : Nat) (hl : List HType) (c : Char)
    (h0 : chars[idx]? = some c)
    (hn1 : highlightChar opts idx c chars = none)
    (hn2 : highlightComment opts idx c chars = none)
    (hn3 : highlightString opts idx c chars = none)
    (hn4 : highlightNumber opts idx c chars = none)
    (hn5 : highlightKeywordsPrimary opts idx chars = none) :
    highlightLoop opts chars idx hl = highlightLoop opts chars (idx + 1) (hl ++ [HType.None]) := by
  rw [highlightLoop]
  split
  · rename_i h0x
    rw [h0] at h0x
    exact Option.noConfusion h0x
  · rename_i c2 h0x
    rw [h0] at h0x
    obtain rfl : c = c2 := Option.some.inj h0x
    split
    · rename_i addx hx
      rw [hn1] at hx
      exact Option.noConfusion hx
    · rename_i hx
      clear hx
      split
      · rename_i addx hx
        rw [hn2] at hx
        exact Option.noConfusion hx
      · rename_i hx
        clear hx
        split
        · rename_i addx hx
          rw [hn3] at hx
          exact Option.noConfusion hx
        · rename_i hx
          clear hx
          split
          · rename_i addx hx
            rw [hn4] at hx
            exact Option.noConfusion hx
          · rename_i hx
            clear hx
            split
            · rename_i addx hx
              rw [hn5] at hx
              exact Option.noConfusion hx
            · rename_i hx
              clear hx
              rfl

theorem highlightLoop_length_ge (opts : HighlightingOptions) (chars : List Char)
    (idx : Nat) (hl : List HType) :
    hl.length + (chars.length - idx) ≤ (highlightLoop opts chars idx hl).length := by
  induction idx, hl using highlightLoop.induct opts chars with
  | case1 idx hl h0 =>
    rw [highlightLoop_step_none opts chars idx hl h0]
    have := List.getElem?_eq_none_iff.mp h0
    omega
  | case2 idx hl c h0 add h1 ih =>
    rw [highlightLoop_step_char opts chars idx hl c add h0 h1]
    simp only [List.length_append] at ih
    omega
  | case3 idx hl c h0 h1 add h2 ih =>
    rw [highlightLoop_step_comment opts chars idx hl c add h0 h1 h2]
    simp only [List.length_append] at ih
    omega
  | case4 idx hl c h0 h1 h2 add h3 ih =>
    rw [highlightLoop_step_string opts chars idx hl c add h0 h1 h2 h3]
    simp only [List.length_append] at ih
    omega
  | case5 idx hl c h0 h1 h2 h3 add h4 ih =>
    rw [highlightLoop_step_number opts chars idx hl c add h0 h1 h2 h3 h4]
    simp only [List.length_append] at ih
    omega
  | case6 idx hl c h0 h1 h2 h3 h4 add h5 ih =>
    rw [highlightLoop_step_keywords opts chars idx hl c add h0 h1 h2 h3 h4 h5]
    simp only [List.length_append] at ih
    omega
  | case7 idx hl c h0 h1 h2 h3 h4 h5 ih =>
    rw [highlightLoop_step_fallthrough opts chars idx hl c h0 h1 h2 h3 h4 h5]
    simp only [List.length_append, List.length_cons, List.length_nil] at ih
    omega

theorem graphemes_length_pos (w : List Char) (hw : w ≠ []) : 1 ≤ (graphemes w).length := by
  cases w with
  | nil => exact absurd rfl hw
  | cons c cs =>
    obtain ⟨g, gs, hg⟩ := graphemes_cons_head c cs
    rw [hg]
    simp

/-- C1 (corrected): after a full highlight pass the highlight array
covers every grapheme cluster — its length is at least the grapheme
count (the scan walks chars, of which there are at least as many as
clusters, and can overshoot by one on an unterminated string). -/
theorem c1_highlight_covers (r : Row) (opts : HighlightingOptions)
    (word : Option (List Char)) (r2 : Row) (h : r.highlight opts word = some r2) :
    (graphemes r.string).length ≤ r2.highlighting.length := by
  have hbase : (graphemes r.string).length
      ≤ (highlightLoop opts r.string 0 []).length := by
    have h1 := highlightLoop_length_ge opts r.string 0 []
    have h2 := graphemes_length_le r.string
    simp only [List.length_nil, Nat.zero_add, Nat.sub_zero] at h1
    omega
  rw [Row.highlight, Row.highlightMatch.eq_def] at h
  split at h
  · cases h
    exact hbase
  · rename_i w
    split at h
    · cases h
      exact hbase
    · obtain ⟨hl2, hh, rfl⟩ := Option.map_eq_some'.mp h
      have hlen := hmLoop_length _ w 0 _ hl2 hh
      show (graphemes r.string).length ≤ hl2.length
      rw [hlen]
      exact hbase

/-- C1 witness: a plain two-character line gets exactly one entry per
cluster, and the covering bound instantiates to it. -/
theorem c1_highlight_covers_witness :
    Row.highlight (Row.fromStr ['a', 'b']) stringsOnlyOpts Option.none
      = some { string := ['a', 'b'], highlighting := [HType.None, HType.None], len := 2 } ∧
    (graphemes (Row.fromStr ['a', 'b']).string).length ≤ 2 := by
  have h1 : highlightLoop stringsOnlyOpts ['a', 'b'] 0 [] = [HType.None, HType.None] := by
    rw [highlightLoop_step_fallthrough stringsOnlyOpts ['a', 'b'] 0 [] 'a'
      (by decide) (by decide) (by decide) (by decide) (by decide) (by decide)]
    rw [highlightLoop_step_fallthrough stringsOnlyOpts ['a', 'b'] (0 + 1)
      ([] ++ [HType.None]) 'b'
      (by decide) (by decide) (by decide) (by decide) (by decide) (by decide)]
    exact highlightLoop_step_none _ _ _ _ (by decide)
  have heval : Row.highlight (Row.fromStr ['a', 'b']) stringsOnlyOpts Option.none
      = some { string := ['a', 'b'], highlighting := [HType.None, HType.None], len := 2 } := by
    show Row.highlightMatch
        { Row.fromStr ['a', 'b'] with
          highlighting := highlightLoop stringsOnlyOpts ['a', 'b'] 0 [] } Option.none = _
    rw [h1]
    rfl
  refine ⟨heval, ?_⟩
  have := c1_highlight_covers (Row.fromStr ['a', 'b']) stringsOnlyOpts Option.none _ heval
  simpa using this

/-- C1 counterexample: the unterminated quoted string in a line of 3
graphemes produces 4 highlight entries (one extra unconditional push
after the string loop), so the array length does not equal the
grapheme count. -/
theorem c1_counterexample :
    ¬ ((Row.highlight (Row.fromStr ['"', 'a', 'b']) stringsOnlyOpts Option.none).map
        (fun r2 => r2.highlighting.length)
        = some ((graphemes (Row.fromStr ['"', 'a', 'b']).string).length)) := by
  have h1 : highlightLoop stringsOnlyOpts ['"', 'a', 'b'] 0 []
      = [HType.String, HType.String, HType.String, HType.String] := by
    rw [highlightLoop_step_string stringsOnlyOpts ['"', 'a', 'b'] 0 [] '"'
      [HType.String, HType.String, HType.String, HType.String]
      (by decide) (by decide) (by decide) (by decide)]
    exact highlightLoop_step_none _ _ _ _ (by decide)
  have heval : Row.highlight (Row.fromStr ['"', 'a', 'b']) stringsOnlyOpts Option.none
      = some { string := ['"', 'a', 'b'],
               highlighting := [HType.String, HType.String, HType.String, HType.String],
               len := 3 } := by
    show Row.highlightMatch
        { Row.fromStr ['"', 'a', 'b'] with
          highlighting := highlightLoop stringsOnlyOpts ['"', 'a', 'b'] 0 [] } Option.none = _
    rw [h1]
    rfl
  rw [heval]
  decide

/-- C6 evaluation at the failing input: on the line consisting of the
three characters quote, a, quote, with character-literal highlighting
active, the recognizer assigns Character to the opening quote and the
body only and leaves the closing quote to the later recognizers, which
give it None — the literal is not consumed or colored as a whole. -/
theorem c6_char_literal_eval :
    Row.highlight (Row.fromStr ['\'', 'a', '\'']) charsOnlyOpts Option.none
      = some { string := ['\'', 'a', '\''],
               highlighting := [HType.Character, HType.Character, HType.None],
               len := 3 } := by
  have h1 : highlightLoop charsOnlyOpts ['\'', 'a', '\''] 0 []
      = [HType.Character, HType.Character, HType.None] := by
    rw [highlightLoop_step_char charsOnlyOpts ['\'', 'a', '\''] 0 [] '\''
      [HType.Character, HType.Character] (by decide) (by decide)]
    rw [highlightLoop_step_fallthrough charsOnlyOpts ['\'', 'a', '\'']
      (0 + [HType.Character, HType.Character].length)
      ([] ++ [HType.Character, HType.Character]) '\''
      (by decide) (by decide) (by decide) (by decide) (by decide) (by decide)]
    exact highlightLoop_step_none _ _ _ _ (by decide)
  show Row.highlightMatch
      { Row.fromStr ['\'', 'a', '\''] with
        highlighting := highlightLoop charsOnlyOpts ['\'', 'a', '\''] 0 [] } Option.none = _
  rw [h1]
  rfl

theorem writeRange_nil_pos (i n : Nat) : writeRange [] i (n + 1) = none := by
  rw [writeRange]
  rw [if_neg (by simp)]

theorem hmLoop_step_some_panic (r : Row) (w : List Char) (idx m : Nat) (hl : List HType)
    (hfind : r.find w idx SearchDirection.Forward = some m)
    (hwr : writeRange hl m (graphemes w).length = none) :
    hmLoop r w idx hl = none := by
  rw [hmLoop]
  split
  · rename_i hf2
    rw [hfind] at hf2
    exact Option.noConfusion hf2
  · rename_i m2 hf2
    rw [hfind] at hf2
    obtain rfl : m = m2 := Option.some.inj hf2
    split
    · rfl
    · rename_i hl3 hwr2
      rw [hwr] at hwr2
      exact Option.noConfusion hwr2

/-- C10 (confirmed): highlight_match writes Match by unchecked index;
on a Row fresh from text (empty highlight array) whose text contains a
non-empty word, the first write is out of bounds — the panic is
modelled by the none result. -/
theorem c10_highlight_match_panics (s w : List Char) (m : Nat) (hw : w ≠ [])
    (hfind : (Row.fromStr s).find w 0 SearchDirection.Forward = some m) :
    (Row.fromStr s).highlightMatch (some w) = none := by
  rw [Row.highlightMatch.eq_def]
  simp only []
  rw [if_neg hw]
  obtain ⟨k, hk⟩ : ∃ k, (graphemes w).length = k + 1 :=
    ⟨(graphemes w).length - 1, by have := graphemes_length_pos w hw; omega⟩
  have hwr : writeRange (Row.fromStr s).highlighting m (graphemes w).length = none := by
    show writeRange [] m (graphemes w).length = none
    rw [hk]
    exact writeRange_nil_pos m k
  rw [hmLoop_step_some_panic _ w 0 m _ hfind hwr]
  rfl

/-- C10 witness: the fresh row "test" with word "es" (found at 1)
panics in highlight_match. -/
theorem c10_highlight_match_panics_witness :
    ("es".data ≠ ([] : List Char)) ∧
    (Row.fromStr ("test".data)).find ("es".data) 0 SearchDirection.Forward = some 1 ∧
    (Row.fromStr ("test".data)).highlightMatch (some ("es".data)) = none := by
  refine ⟨by decide, by decide, ?_⟩
  exact c10_highlight_match_panics _ _ 1 (by decide) (by decide)

theorem renderChars_nil : renderChars [] = [] := rfl

theorem renderChars_cons_style (t : HType) (out : List RItem) :
    renderChars (RItem.style t :: out) = renderChars out := rfl

theorem renderChars_cons_chr (c : Char) (out : List RItem) :
    renderChars (RItem.chr c :: out) = c :: renderChars out := rfl

theorem renderChars_append (o1 o2 : List RItem) :
    renderChars (o1 ++ o2) = renderChars o1 ++ renderChars o2 := by
  simp [renderChars, List.filterMap_append]

theorem renderStyles_nil : renderStyles [] = [] := rfl

theorem renderStyles_cons_style (t : HType) (out : List RItem) :
    renderStyles (RItem.style t :: out) = t :: renderStyles out := rfl

theorem renderStyles_cons_chr (c : Char) (out : List RItem) :
    renderStyles (RItem.chr c :: out) = renderStyles out := rfl

theorem renderStyles_append (o1 o2 : List RItem) :
    renderStyles (o1 ++ o2) = renderStyles o1 ++ renderStyles o2 := by
  simp [renderStyles, List.filterMap_append]

theorem renderLoop_chars (hl : List HType) (cur : HType) (i : Nat)
    (gs : List (List Char)) (n : Nat) :
    renderChars (renderLoop hl cur i gs n)
      = (((gs.take n).filterMap List.head?).map
          (fun c => if c = '\t' then [' ', ' '] else [c])).flatten := by
  induction gs generalizing cur i n with
  | nil => cases n <;> simp [renderLoop, renderChars_nil]
  | cons g gs ih =>
    cases n with
    | zero => simp [renderLoop, renderChars_nil]
    | succ n2 =>
      rw [renderLoop]
      cases hh : g.head? with
      | none =>
        simp only [hh]
        rw [ih]
        simp [List.take_succ_cons, List.filterMap_cons, hh]
      | some c =>
        simp only [hh]
        split_ifs with hc hd hd <;>
          simp [renderChars_cons_style, renderChars_cons_chr, renderChars_append,
            List.take_succ_cons, List.filterMap_cons, hh, hd, ih]

theorem renderLoop_chain (hl : List HType) (cur : HType) (i : Nat)
    (gs : List (List Char)) (n : Nat) :
    List.Chain' (fun a b => a ≠ b) (cur :: renderStyles (renderLoop hl cur i gs n)) := by
  induction gs generalizing cur i n with
  | nil => cases n <;> simp [renderLoop, renderStyles_nil]
  | cons g gs ih =>
    cases n with
    | zero => simp [renderLoop, renderStyles_nil]
    | succ n2 =>
      rw [renderLoop]
      cases hh : g.head? with
      | none =>
        simp only [hh]
        exact ih cur (i + 1) n2
      | some c =>
        simp only [hh]
        split_ifs with hc hd hd
        · rw [renderStyles_cons_style]
          rw [List.chain'_cons]
          refine ⟨Ne.symm hc, ?_⟩
          have := ih (hl[i]?.getD HType.None) (i + 1) n2
          simpa [renderStyles_append, renderStyles_cons_chr, renderStyles_nil] using this
        · rw [renderStyles_cons_style]
          rw [List.chain'_cons]
          refine ⟨Ne.symm hc, ?_⟩
          have := ih (hl[i]?.getD HType.None) (i + 1) n2
          simpa [renderStyles_append, renderStyles_cons_chr, renderStyles_nil] using this
        · have := ih cur (i + 1) n2
          simpa [renderStyles_append, renderStyles_cons_chr, renderStyles_nil] using this
        · have := ih cur (i + 1) n2
          simpa [renderStyles_append, renderStyles_cons_chr, renderStyles_nil] using this

theorem renderChars_reset : renderChars [RItem.reset] = [] := rfl

theorem renderStyles_reset : renderStyles [RItem.reset] = [] := rfl

/-- C7 (confirmed): for every line and clip range, the render output's
display characters are exactly the first characters of the clipped
clusters with a literal tab expanded to exactly two spaces; a style
marker appears only when the category differs from the previously
emitted one (starting from the default None, so consecutive emitted
style categories are pairwise distinct); and the output always ends
with the reset marker. -/
theorem c7_render_contract (r : Row) (s e : Nat) :
    renderChars (r.render s e)
      = (((((graphemes r.string).drop (min s (min e (utf8Len r.string)))).take
            (min e (utf8Len r.string) - min s (min e (utf8Len r.string)))).filterMap
            List.head?).map (fun c => if c = '\t' then [' ', ' '] else [c])).flatten ∧
    List.Chain' (fun a b => a ≠ b) (HType.None :: renderStyles (r.render s e)) ∧
    (r.render s e).getLast? = some RItem.reset := by
  refine ⟨?_, ?_, ?_⟩
  · rw [Row.render]
    rw [renderChars_append]
    rw [renderLoop_chars]
    simp [renderChars_reset]
  · rw [Row.render]
    have h := renderLoop_chain r.highlighting HType.None
      (min s (min e (utf8Len r.string)))
      ((graphemes r.string).drop (min s (min e (utf8Len r.string))))
      (min e (utf8Len r.string) - min s (min e (utf8Len r.string)))
    simpa [renderStyles_append, renderStyles_reset] using h
  · rw [Row.render]
    exact List.getLast?_concat _

/-- C8 (confirmed): the scroll recomputation follows the three-case
rule vertically and the symmetric rule horizontally, and the spec
scenario (height 10, cursor line 25, offset 0) lands on offset row
16. -/
theorem c8_scroll_cases (cursorPos : Position) (width height : Nat) (offset : Position) :
    (cursorPos.y < offset.y → (scroll cursorPos width height offset).y = cursorPos.y) ∧
    (cursorPos.y ≥ offset.y + height →
      (scroll cursorPos width height offset).y = cursorPos.y - height + 1) ∧
    (offset.y ≤ cursorPos.y → cursorPos.y < offset.y + height →
      (scroll cursorPos width height offset).y = offset.y) ∧
    (cursorPos.x < offset.x → (scroll cursorPos width height offset).x = cursorPos.x) ∧
    (cursorPos.x ≥ offset.x + width →
      (scroll cursorPos width height offset).x = cursorPos.x - width + 1) ∧
    (offset.x ≤ cursorPos.x → cursorPos.x < offset.x + width →
      (scroll cursorPos width height offset).x = offset.x) ∧
    (scroll { x := 0, y := 25 } 80 10 { x := 0, y := 0 }).y = 16 := by
  refine ⟨fun h => ?_, fun h => ?_, fun h1 h2 => ?_, fun h => ?_, fun h => ?_,
    fun h1 h2 => ?_, by decide⟩ <;>
    simp only [scroll] <;> split_ifs <;> omega

/-- C8 witness: the scenario conjunct instantiated through the
theorem's down-scroll case. -/
theorem c8_scroll_cases_witness :
    (25 ≥ 0 + 10) ∧ (scroll { x := 0, y := 25 } 80 10 { x := 0, y := 0 }).y = 25 - 10 + 1 :=
  ⟨by decide,
   (c8_scroll_cases { x := 0, y := 25 } 80 10 { x := 0, y := 0 }).2.1 (by decide)⟩

/-- C9 (code bug): the status text the Editor surfaces when
Document::save returns Err is the very success message — the Err
branch of editor.rs 142-146 sets "File saved successfully." too, so a
failed save is reported as a success. -/
theorem c9_save_status_eval : saveStatusText false = saveStatusText true := rfl
